import Mathlib

/-!
Verification of the Maya scene-file dependency parser of `artella-dccs-maya`.

The Python sources are embedded shallowly:

* Python byte strings / text strings become `List Char` or `String`
  (the code targets Python 2, where `str` is a byte string, so bytes and
  characters coincide there; binary chunk streams are embedded as `List Nat`
  byte lists);
* stateful stream reads become explicit positions into a byte list;
* functions that can raise (`IndexError`, `struct.error`, `KeyError`)
  return `Option`/`Except`;
* unbounded `while` loops are given an explicit fuel argument, with the
  fuel chosen in every theorem large enough that exhaustion is unreachable
  (structural recursion on the fuel keeps every definition kernel-executable).

Every definition carries a note naming the Python function it embeds.
-/

/-- Python whitespace as stripped by `str.strip()` (ASCII subset). -/
def isPySpace (c : Char) : Bool :=
  c = ' ' ∨ c = '\t' ∨ c = '\n' ∨ c = '\r' ∨ c = '\x0b' ∨ c = '\x0c'

/-- Python `s.lstrip()` on a character list. -/
def pyLStrip (s : List Char) : List Char := s.dropWhile isPySpace

/-- Python `s.rstrip(chars)` on a character list: remove trailing characters
belonging to `chars`. -/
def pyRStripChars (chars : List Char) (s : List Char) : List Char :=
  (s.reverse.dropWhile (fun c => c ∈ chars)).reverse

/-- Python `s.strip()` on a character list. -/
def pyStrip (s : List Char) : List Char :=
  ((s.dropWhile isPySpace).reverse.dropWhile isPySpace).reverse

/-- Python `s.replace(pat, rep)`: replace every non-overlapping occurrence of
`pat`, scanning left to right.  The fuel is structural; `s.length` steps always
suffice because every step consumes at least one character of `s`. -/
def pyReplace : Nat → List Char → List Char → List Char → List Char
  | 0, s, _, _ => s
  | fuel + 1, s, pat, rep =>
    match s with
    | [] => []
    | c :: rest =>
      if pat ≠ [] ∧ pat.isPrefixOf (c :: rest) then
        rep ++ pyReplace fuel ((c :: rest).drop pat.length) pat rep
      else
        c :: pyReplace fuel rest pat rep

/-- Python `s.replace(pat, rep)` with the always-sufficient fuel. -/
def pyReplaceAll (s pat rep : List Char) : List Char :=
  pyReplace s.length s pat rep

/-- Python substring containment `a in b` (for `str` operands). -/
def isSubstrOf : List Char → List Char → Bool
  | a, [] => a.isEmpty
  | a, c :: rest => a.isPrefixOf (c :: rest) || isSubstrOf a rest

/-- The `while '\\' in path: path = path.replace('\\', '//')` loop of
`clean_path` (`scripts/maya_parser.py`).  The body removes every backslash
(the replacement contains none), so the loop runs at most once; the fuel is
only needed to express it as structural recursion. -/
def whileBackslash : Nat → List Char → List Char
  | 0, s => s
  | fuel + 1, s =>
    if '\\' ∈ s then whileBackslash fuel (pyReplaceAll s ['\\'] ['/', '/'])
    else s

/-- Embeds `clean_path` from `src/artella/dccs/maya/scripts/maya_parser.py`
(Python 3 branch: the `sys.version_info.major == 2` guard makes
`os.path.expanduser` run only under Python 2, so it is not part of this
embedding; none of the paths used in the theorems below start with `~`
anyway).  Statement order follows the source exactly:

1. `path.replace('\\', '/').replace('//', '/').rstrip('/').strip()`;
2. `is_server_path = path.startswith('\\')`;
3. `while '\\' in path: path = path.replace('\\', '//')`;
4. `if is_server_path: path = '//' + path`;
5. `if not path.find('https://') > -1: path = path.replace('//', '/')`
   (`find` returns a non-negative index exactly when the substring occurs). -/
def cleanPath (p : String) : String :=
  let l1 := pyReplaceAll p.data ['\\'] ['/']
  let l2 := pyReplaceAll l1 ['/', '/'] ['/']
  let l3 := pyStrip (pyRStripChars ['/'] l2)
  let isServer := ['\\'].isPrefixOf l3
  let l4 := whileBackslash (l3.length + 1) l3
  let l5 := if isServer then '/' :: '/' :: l4 else l4
  let l6 := if isSubstrOf "https://".data l5 then l5 else pyReplaceAll l5 ['/', '/'] ['/']
  String.mk l6

/-- Big-endian word value of a byte list, as produced by `struct.unpack` with
format `>` (embeds the value semantics of `be_word4`/`be_read4`/`be_read8`
from `src/artella/dccs/maya/utils.py`). -/
def wordBE (bs : List Nat) : Nat := bs.foldl (fun a b => a * 256 + b) 0

/-- Little-endian word value of a byte list (format `<`). -/
def wordLE (bs : List Nat) : Nat := wordBE bs.reverse

/-- Big-endian encoding of `v` into `n` bytes (the inverse direction of
`wordBE`, used to build synthetic streams). -/
def encodeBE : Nat → Nat → List Nat
  | 0, _ => []
  | n + 1, v => encodeBE n (v / 256) ++ [v % 256]

/-- Embeds `be_word4` applied to a 4-character ASCII tag
(`src/artella/dccs/maya/utils.py`, line 309): `struct.unpack(">L", buf)` of
the tag's ASCII bytes. -/
def beWord4Tag (s : String) : Nat := wordBE (s.data.map Char.toNat)

/-- `IffChunks.FOR4` (`src/artella/dccs/maya/utils.py`, line 371). -/
def tagFOR4 : Nat := beWord4Tag "FOR4"

/-- `IffChunks.FOR8` (`src/artella/dccs/maya/utils.py`, line 374). -/
def tagFOR8 : Nat := beWord4Tag "FOR8"

/-- Python `int()` truncation toward zero on an exact rational. -/
def pyTrunc (q : ℚ) : ℤ := if q < 0 then -⌊-q⌋ else ⌊q⌋

/-- Embeds `align` from `src/artella/dccs/maya/utils.py` (lines 341-342):
`stride * int(1 + ((size - 1) / stride))`.  The module imports
`division` from `__future__`, so `/` is true division; it is modelled by
exact rational division followed by `int()` truncation. -/
def align (size stride : ℤ) : ℤ :=
  stride * pyTrunc (1 + ((size : ℚ) - 1) / (stride : ℚ))

/-- The value of `align` on natural inputs, expressed with natural-number
division (`alignN_eq_align` below proves it agrees with `align`).  Used by
the chunk-reader embedding, whose offsets are naturals. -/
def alignN (size stride : Nat) : Nat :=
  if size = 0 then 0 else stride * (1 + (size - 1) / stride)

/-- Mirrors the `IffFormat` namedtuple of `IffParser`
(`src/artella/dccs/maya/utils.py`, lines 435-436). Endianness uses the
source constants: 0 native, 1 big, 2 little. -/
structure IffFormat where
  endianness : Nat
  typeid_bytes : Nat
  size_bytes : Nat
  header_alignment : Nat
  chunk_alignment : Nat
deriving DecidableEq

/-- Mirrors the `IffChunk` namedtuple of `IffParser`
(`src/artella/dccs/maya/utils.py`, line 437). -/
structure IffChunk where
  typeid : Nat
  data_offset : Nat
  data_length : Nat
deriving DecidableEq

/-- Width a header field occupies: the field bytes followed by
`'x' * max(0, header_alignment - field_bytes)` padding, exactly as built by
`IffParser._get_header_struct` (`src/artella/dccs/maya/utils.py`,
lines 482-500). -/
def headerFieldWidth (field_bytes header_alignment : Nat) : Nat :=
  field_bytes + (header_alignment - field_bytes)

/-- Total byte size of the packed chunk header (`self._header_struct.size`). -/
def headerSize (fmt : IffFormat) : Nat :=
  headerFieldWidth fmt.typeid_bytes fmt.header_alignment +
    headerFieldWidth fmt.size_bytes fmt.header_alignment

/-- Field decode according to the format's endianness (`struct` formats `>`
and `<`; the native format `=` is host-dependent and modelled as the
big-endian host — both canonical Maya formats declare big-endian
explicitly). -/
def decodeWordF (fmt : IffFormat) (bs : List Nat) : Nat :=
  if fmt.endianness = 2 then wordLE bs else wordBE bs

/-- Field encode matching `decodeWordF` (used to build synthetic streams). -/
def encodeWordF (fmt : IffFormat) (n v : Nat) : List Nat :=
  if fmt.endianness = 2 then (encodeBE n v).reverse else encodeBE n v

/-- Embeds `IffParser._read_next_chunk_header`
(`src/artella/dccs/maya/utils.py`, lines 530-535): read
`self._header_struct.size` bytes at `pos`; if fewer are available return
`None`, otherwise unpack the type identifier and the data length (the
padding bytes after each field are skipped by the struct format). -/
def readHeader (fmt : IffFormat) (data : List Nat) (pos : Nat) : Option (Nat × Nat) :=
  if pos + headerSize fmt ≤ data.length then
    some (decodeWordF fmt ((data.drop pos).take fmt.typeid_bytes),
          decodeWordF fmt
            ((data.drop (pos + headerFieldWidth fmt.typeid_bytes fmt.header_alignment)).take
              fmt.size_bytes))
  else none

/-- Embeds `IffParser._is_past_the_end` (`src/artella/dccs/maya/utils.py`,
lines 524-528).  `bound` is `self._current_chunk_end`; Python tests its
truthiness, so both `None` and `0` fall to the `else` branch, which returns
`not self._stream` — `False` for an open file object. -/
def pastEnd (bound : Option Nat) (pos : Nat) : Bool :=
  match bound with
  | none => false
  | some b => if b = 0 then false else decide (b ≤ pos)

/-- Aligned end of a chunk: `chunk.data_offset + align(chunk.data_length,
chunk_alignment)`, the offset `IffParser._using_chunk` seeks to on exit
(`src/artella/dccs/maya/utils.py`, lines 557-572). -/
def chunkAlignedEnd (fmt : IffFormat) (c : IffChunk) : Nat :=
  c.data_offset + alignN c.data_length fmt.chunk_alignment

/-- Embeds the sibling-iteration loop `IffParser._iter_chunks` together with
the `_using_chunk` context manager and `_read_next_chunk`
(`src/artella/dccs/maya/utils.py`, lines 537-580):

* before each header read, `_is_past_the_end` is consulted with the
  enclosing bound (`bound` stays the *parent* end across siblings, since
  `_using_chunk` restores it in its `finally` block);
* a truncated or absent header ends the iteration;
* the chunk handler runs while the chunk is current; `hf` gives the stream
  position at which the handler body leaves the stream.  A handler that only
  reads never touches `_current_chunk_end`, so the `finally` block seeks to
  the aligned end computed on entry, discarding `hf`'s position — which is
  why `_bodyPos` is dead below;
* `types` is the optional filter of `_iter_chunks`: non-matching chunks are
  still entered and exited (advancing the stream) but not yielded.

The fuel is structural; one unit is spent per chunk, so any fuel exceeding
the chunk count is sufficient. -/
def iterChunks (fmt : IffFormat) (hf : IffChunk → Nat) (types : Option (List Nat)) :
    Nat → List Nat → Nat → Option Nat → List IffChunk
  | 0, _, _, _ => []
  | fuel + 1, data, pos, bound =>
    if pastEnd bound pos then []
    else
      match readHeader fmt data pos with
      | none => []
      | some (t, len) =>
        let c : IffChunk := ⟨t, pos + headerSize fmt, len⟩
        let _bodyPos := hf c
        let rest := iterChunks fmt hf types fuel data (chunkAlignedEnd fmt c) bound
        match types with
        | none => c :: rest
        | some ts => if t ∈ ts then c :: rest else rest

/-- Byte encoding of one chunk header: each field padded to the header
alignment with zero bytes (the struct `'x'` pad bytes). -/
def encodeHeader (fmt : IffFormat) (t len : Nat) : List Nat :=
  encodeWordF fmt fmt.typeid_bytes t ++
    List.replicate (fmt.header_alignment - fmt.typeid_bytes) 0 ++
    (encodeWordF fmt fmt.size_bytes len ++
      List.replicate (fmt.header_alignment - fmt.size_bytes) 0)

/-- Byte encoding of one well-formed chunk: header, payload, and zero padding
up to the aligned end. -/
def encodeChunk (fmt : IffFormat) (spec : Nat × List Nat) : List Nat :=
  encodeHeader fmt spec.1 spec.2.length ++
    (spec.2 ++ List.replicate (alignN spec.2.length fmt.chunk_alignment - spec.2.length) 0)

/-- Byte encoding of a sequence of sibling chunks. -/
def encodeChunks (fmt : IffFormat) (specs : List (Nat × List Nat)) : List Nat :=
  (specs.map (encodeChunk fmt)).flatten

/-- The chunk values iteration is expected to yield for an encoded sibling
sequence starting at `pos`: the data offset of each chunk sits one header
past the previous chunk's aligned end. -/
def expectedChunks (fmt : IffFormat) : List (Nat × List Nat) → Nat → List IffChunk
  | [], _ => []
  | (t, p) :: rest, pos =>
    ⟨t, pos + headerSize fmt, p.length⟩ ::
      expectedChunks fmt rest (pos + headerSize fmt + alignN p.length fmt.chunk_alignment)

/-- Modelled from the spec: the binary decoder entry point that reads the
4-byte magic signature and selects the 32-bit or 64-bit chunk format is not
present under `src/` — `MayaIffParser.__init__`
(`src/artella/dccs/maya/utils.py`, lines 584-606) already receives a
pre-selected `iff_format`/`maya64` pair and has no caller in the repository.
Per the spec: the first 4 bytes must be one of the two literal ASCII tags
(`FOR4` selecting the 32-bit variant, `FOR8` the 64-bit one); anything else
— including a stream too short for the 4-byte read — is a structural error
aborting that file's decode.  Returns the `maya64` flag on success. -/
def magicSelect (data : List Nat) : Option Bool :=
  if data.length < 4 then none
  else
    let w := wordBE (data.take 4)
    if w = tagFOR4 then some false
    else if w = tagFOR8 then some true
    else none

/-- Modelled from the spec: decoding one binary scene file.  The semantic
chunk walk over a well-formed stream is abstracted as `walk` (given the
selected format variant); a failed magic selection aborts with a structural
error and yields no dependency entries. -/
def decodeBinaryFile (walk : Bool → List Nat → List String) (data : List Nat) :
    Except Unit (List String) :=
  match magicSelect data with
  | some maya64 => Except.ok (walk maya64 data)
  | none => Except.error ()

/-- Modelled from the spec: batch resolution.  Each file of the batch is
decoded independently; a structural error is caught at file granularity and
recorded in the error list, while successful files contribute their
dependency entries to the result mapping. -/
def resolveBatch (walk : Bool → List Nat → List String) :
    List (String × List Nat) → List (String × List String) × List String
  | [] => ([], [])
  | (name, data) :: rest =>
    let r := resolveBatch walk rest
    match decodeBinaryFile walk data with
    | Except.ok refs => ((name, refs) :: r.1, r.2)
    | Except.error _ => (r.1, name :: r.2)

/-- Embeds `read_null_terminated` from `src/artella/dccs/maya/utils.py`
(lines 345-352), under the Python 2 string semantics the module targets.
The stream is `data` with current position `pos`; `stream.read(1)` yields
the byte at `pos` (advancing) or `''` at end of stream (not advancing).
The loop guard `while stream and next_byte != '\0'` never exits via
`stream` (a file object is always truthy), so at end of stream the loop
spins forever appending `''`; the fuel makes that spin a `none` result.
On success the accumulated bytes and the final position are returned. -/
def readNullTerminated : Nat → List Char → Nat → List Char → Option (List Char × Nat)
  | 0, _, _, _ => none
  | fuel + 1, data, pos, acc =>
    match data[pos]? with
    | none => readNullTerminated fuel data pos acc
    | some c =>
      if c = '\x00' then some (acc, pos + 1)
      else readNullTerminated fuel data (pos + 1) (acc ++ [c])

/-- Values held by `MayaAsciiParser._reference_file_paths`
(`src/artella/dccs/maya/parser.py`): `_handle_file` appends path strings,
while `_handle_set_attr` may append either the final token (a string) or the
raw token-list slice after a `-type` flag — Python keeps the list
unflattened, so the embedding needs a sum of both shapes. -/
inductive MayaVal where
  | str : String → MayaVal
  | vlist : List String → MayaVal
deriving DecidableEq

/-- The quote scan of `MayaAsciiParser._parse_command_lines`
(`src/artella/dccs/maya/parser.py`, lines 566-576): starting after the
opening quote, find the offset of the first unescaped `delim`.  The escape
flag becomes true after an unescaped backslash and resets after any other
character — exactly the `escaped` bookkeeping of the source loop. -/
def qScan (delim : Char) : Bool → List Char → Option Nat
  | _, [] => none
  | esc, c :: rest =>
    if !esc ∧ c = delim then some 0
    else (qScan delim (!esc ∧ c = '\\') rest).map (· + 1)

/-- Python `s.partition(' ')` restricted to the pieces the source uses:
the text before the first space and the text after it (empty when no space
occurs). -/
def partitionSpace (l : List Char) : List Char × List Char :=
  (l.takeWhile (· ≠ ' '), (l.dropWhile (· ≠ ' ')).drop 1)

/-- Embeds the argument-tokenization loop of
`MayaAsciiParser._parse_command_lines` (`src/artella/dccs/maya/parser.py`,
lines 558-581) for one line: repeatedly strip the line; a leading `'` or `"`
opens a quoted token ending at the first unescaped matching quote (or at end
of line), anything else takes the run up to the first space
(`line.partition(" ")`).  Fuel is structural; every iteration shortens the
line, so `l.length + 1` steps always suffice. -/
def tokenizeLine : Nat → List Char → List String
  | 0, _ => []
  | fuel + 1, l =>
    match pyStrip l with
    | [] => []
    | c :: rest =>
      if c = '\'' ∨ c = '"' then
        let stringEnd := match qScan c false rest with
          | some i => 1 + i
          | none => (c :: rest).length
        let arg := ((c :: rest).drop 1).take (stringEnd - 1)
        let line2 := (c :: rest).drop (stringEnd + 1)
        String.mk arg :: tokenizeLine fuel line2
      else
        let arg := (c :: rest).takeWhile (· ≠ ' ')
        let line2 := ((c :: rest).dropWhile (· ≠ ' ')).drop 1
        String.mk arg :: tokenizeLine fuel line2

/-- Tokenize one statement line given as a string. -/
def tokenizeStr (s : String) : List String := tokenizeLine (s.data.length + 1) s.data

/-- Embeds the flag-scanning loop of `MayaAsciiParser._handle_file`
(`src/artella/dccs/maya/parser.py`, lines 463-481), returning the final
`arg_index`.  Note two source quirks kept verbatim: each two-token flag
advances the index by 2 (the flag itself plus one following token), and the
`-op` / `-typ` tests are written `arg in ('-op')` — membership in a *string*,
i.e. a substring test, because the parenthesised literal is not a tuple.
Fuel is structural; the index grows every step, so `args.length + 1` steps
always suffice. -/
def handleFileLoop (args : List String) : Nat → Nat → Nat
  | 0, i => i
  | fuel + 1, i =>
    if h : i < args.length then
      let arg := args[i]
      if arg = "-r" ∨ arg = "--reference" then handleFileLoop args fuel (i + 1)
      else if arg = "-rdi" ∨ arg = "--referenceDepthInfo" then handleFileLoop args fuel (i + 2)
      else if arg = "-ns" ∨ arg = "--namespace" then handleFileLoop args fuel (i + 2)
      else if arg = "-dr" ∨ arg = "--deferReference" then handleFileLoop args fuel (i + 2)
      else if arg = "-rfn" ∨ arg = "--referenceNode" then handleFileLoop args fuel (i + 2)
      else if isSubstrOf arg.data "-op".data then handleFileLoop args fuel (i + 2)
      else if isSubstrOf arg.data "-typ".data then handleFileLoop args fuel (i + 2)
      else i
    else i

/-- Embeds `MayaAsciiParser._handle_file` (`src/artella/dccs/maya/parser.py`,
lines 461-486): scan leading flags, then append the token at the final index
(if any) to the reference-path list unless already present. -/
def handleFile (args : List String) (paths : List MayaVal) : List MayaVal :=
  let i := handleFileLoop args (args.length + 1) 0
  if h : i < args.length then
    if MayaVal.str args[i] ∈ paths then paths else paths ++ [MayaVal.str args[i]]
  else paths

/-- The `file`-statement flag scan as the amended claim states it, written as
structural recursion over the argument list: the reference flag consumes no
following token; every other recognized flag (including any token that is a
substring of `-op` or `-typ`) consumes exactly one following token; the
first unrecognized token is the file path. -/
def fileScanAmended : List String → Option String
  | [] => none
  | arg :: rest =>
    if arg = "-r" ∨ arg = "--reference" then fileScanAmended rest
    else if arg = "-rdi" ∨ arg = "--referenceDepthInfo" ∨ arg = "-ns" ∨ arg = "--namespace" ∨
        arg = "-dr" ∨ arg = "--deferReference" ∨ arg = "-rfn" ∨ arg = "--referenceNode" ∨
        isSubstrOf arg.data "-op".data ∨ isSubstrOf arg.data "-typ".data then
      match rest with
      | [] => none
      | _ :: rest2 => fileScanAmended rest2
    else some arg

/-- The `file`-statement handler as the amended claim states it. -/
def handleFileAmended (args : List String) (paths : List MayaVal) : List MayaVal :=
  match fileScanAmended args with
  | none => paths
  | some fp => if MayaVal.str fp ∈ paths then paths else paths ++ [MayaVal.str fp]

/-- The `file`-statement flag scan following claim C4's words as stated:
the reference flag consumes 0 following tokens and each of the namespace,
reference-depth-info, defer-reference, reference-node, operation and type
flags consumes 2 following tokens; the first non-flag token is the path. -/
def fileScanClaimStated : List String → Option String
  | [] => none
  | arg :: rest =>
    if arg = "-r" ∨ arg = "--reference" then fileScanClaimStated rest
    else if arg = "-rdi" ∨ arg = "--referenceDepthInfo" ∨ arg = "-ns" ∨ arg = "--namespace" ∨
        arg = "-dr" ∨ arg = "--deferReference" ∨ arg = "-rfn" ∨ arg = "--referenceNode" ∨
        arg = "-op" ∨ arg = "-typ" then
      match rest with
      | [] => none
      | [_] => none
      | _ :: _ :: rest2 => fileScanClaimStated rest2
    else some arg

/-- The `-type` scanning loop of `MayaAsciiParser._handle_set_attr`
(`src/artella/dccs/maya/parser.py`, lines 494-502), over the already-popped
argument list, starting at `arg_index = 1`.  Finding `-type`/`--type` at
index `i` stores `args[i + 1]` as the type (an `IndexError` — `none` — when
out of range) and the slice `args[i + 2 :]` as the value, then continues
scanning from `i + 2`.  Fuel is structural; the index grows every step. -/
def setAttrScan (args : List String) :
    Nat → Nat → Option String → Option (List String) →
      Option (Option String × Option (List String))
  | 0, _, t, v => some (t, v)
  | fuel + 1, i, t, v =>
    if h : i < args.length then
      if args[i] = "-type" ∨ args[i] = "--type" then
        if h2 : i + 1 < args.length then
          setAttrScan args fuel (i + 2) (some args[i + 1]) (some (args.drop (i + 2)))
        else none
      else setAttrScan args fuel (i + 1) t v
    else some (t, v)

/-- Embeds `MayaAsciiParser._handle_set_attr`
(`src/artella/dccs/maya/parser.py`, lines 488-511), additionally exposing the
resolved attribute name, type and value.  `args.pop(0)` on an empty list and
`args[-1]` on an empty list are `IndexError`s (`none`).  Falsiness is kept:
an empty slice value falls back to `args[-1]`, an empty type string falls
back to `'string'`.  The path is recorded only for type `'string'` with
attribute short name in `['ftn']`. -/
def handleSetAttrFull (args0 : List String) (paths : List MayaVal) :
    Option (String × String × MayaVal × List MayaVal) :=
  match args0 with
  | [] => none
  | a0 :: args =>
    let name := a0.drop 1
    match setAttrScan args (args.length + 1) 1 none none with
    | none => none
    | some (t, v) =>
      let fallback : Option MayaVal := (args.getLast?).map MayaVal.str
      let value : Option MayaVal :=
        match v with
        | some l => if l.isEmpty then fallback else some (MayaVal.vlist l)
        | none => fallback
      match value with
      | none => none
      | some val =>
        let attrType := match t with
          | none => "string"
          | some s => if s = "" then "string" else s
        if attrType = "string" ∧ name ∈ ["ftn"] then
          some (name, attrType, val, paths ++ [val])
        else some (name, attrType, val, paths)

/-- `_handle_set_attr` restricted to its effect on the reference-path list. -/
def handleSetAttr (args0 : List String) (paths : List MayaVal) : Option (List MayaVal) :=
  (handleSetAttrFull args0 paths).map (fun r => r.2.2.2)

/-- The command name extracted by `MayaAsciiParser._parse_command_lines`
(`src/artella/dccs/maya/parser.py`, line 552-553):
`command, _, lines[0] = lines[0].partition(' ')` then `command.lstrip()`. -/
def commandOf (l0 : String) : String := String.mk (pyLStrip (partitionSpace l0.data).1)

/-- Embeds `MayaAsciiParser._parse_command_lines` together with
`handle_command` (`src/artella/dccs/maya/parser.py`, lines 434-444 and
543-583): split the command name off the first line, ignore statements whose
command has no handler (only `file` and `setAttr` have one), tokenize all
lines (the first line replaced by its remainder) and dispatch.  `none`
models an exception escaping the handler. -/
def parseCommandLines (lines : List String) (paths : List MayaVal) : Option (List MayaVal) :=
  match lines with
  | [] => some paths
  | l0 :: rest =>
    let pr := partitionSpace l0.data
    let command := String.mk (pyLStrip pr.1)
    if command = "file" ∨ command = "setAttr" then
      let args := ((String.mk pr.2 :: rest).map tokenizeStr).flatten
      if command = "file" then some (handleFile args paths)
      else handleSetAttr args paths
    else some paths

/-- Embeds the statement-assembly loop of
`MayaAsciiParser._parse_next_command` (`src/artella/dccs/maya/parser.py`,
lines 513-541).  The stream is the list of not-yet-consumed physical lines
(`readline` returning `''` — end of file — is the end of the list; a blank
line in the file is `'\n'` and is dropped by the `elif line:` tests after
the `rstrip`).  Returns the accumulated statement lines and the remaining
stream. -/
def gatherStatement : List String → List String → List String × List String
  | [], acc => (acc, [])
  | line :: rest, acc =>
    if "//".data.isPrefixOf line.data then gatherStatement rest acc
    else
      let l := pyRStripChars ['\r', '\n'] line.data
      if l ≠ [] then
        if l.getLast? = some ';' then (acc ++ [String.mk l.dropLast], rest)
        else gatherStatement rest (acc ++ [String.mk l])
      else gatherStatement rest acc

/-- `list.pop(list.index(x))`: remove the first occurrence of `x`
(`MayaAsciiSceneParserWorker.run`, `src/artella/dccs/maya/parser.py`,
line 69). -/
def removeFirst : List String → String → List String
  | [], _ => []
  | x :: xs, y => if x = y then xs else x :: removeFirst xs y

/-- `list(set(xs))` keeping first occurrences.  Python's set order is
implementation-defined; only order-independent facts (membership,
duplicate-freedom) are proved about results of this function. -/
def pySetList (xs : List String) : List String := go [] xs
where
  go : List String → List String → List String
    | _, [] => []
    | seen, x :: rest => if x ∈ seen then go seen rest else x :: go (x :: seen) rest

/-- Embeds the result post-processing of `MayaAsciiSceneParserWorker.run`
(`src/artella/dccs/maya/parser.py`, lines 62-78): clean every extracted
candidate path, remove the first occurrence of the worker's own file path if
present, then deduplicate via `list(set(...))`. -/
def workerRun (file_path : String) (candidates : List String) : List String :=
  let parsed := candidates.map cleanPath
  let parsed2 := if file_path ∈ parsed then removeFirst parsed file_path else parsed
  pySetList parsed2

/-- Embeds the per-file loop body of `parse` from
`src/artella/dccs/maya/scripts/maya_parser.py` (lines 209-232) with
`recursive=True`.  `norm` abstracts `os.path.normpath(os.path.expandvars ·)`
and `deps` abstracts `get_dependency_paths` (which runs Maya); `recur` is
the recursive `parse` call on the discovered dependencies — its return value
is discarded by the source, and the local error mapping is not modelled (no
claim mentions its contents).  A missing key at
`dependencies_paths[file_path].extend(...)` is a `KeyError` caught by the
per-file `except`, so the loop continues with the mapping as built so far. -/
def parseLoop (norm : String → String) (deps : String → List String)
    (recur : List String → Option (List (String × List String))) :
    List String → List (String × List String) → Option (List (String × List String))
  | [], acc => some acc
  | fp :: rest, acc =>
    if fp = "" then parseLoop norm deps recur rest acc
    else
      let fp1 := cleanPath fp
      let acc1 := if acc.any (fun kv => kv.1 = fp1) then acc else acc ++ [(fp1, [])]
      let fp2 := cleanPath (norm fp1)
      if acc1.any (fun kv => kv.1 = fp2) then
        let acc2 := acc1.map (fun kv => if kv.1 = fp2 then (kv.1, kv.2 ++ deps fp2) else kv)
        match recur (deps fp2) with
        | none => none
        | some _ => parseLoop norm deps recur rest acc2
      else parseLoop norm deps recur rest acc1

/-- Embeds `parse` of `src/artella/dccs/maya/scripts/maya_parser.py`
(lines 209-232, `recursive=True`): each invocation starts a **fresh local**
`dependencies_paths` mapping and recurses via a plain `parse(file_dependencies)`
call.  The fuel counts nested `parse` frames (Python's call stack);
`none` means the computation is still recursing when the fuel runs out, so
`∀ fuel, ... = none` states that no recursion depth completes the call. -/
def parseCall (norm : String → String) (deps : String → List String) :
    Nat → List String → Option (List (String × List String))
  | 0, _ => none
  | fuel + 1, file_paths =>
    if file_paths.isEmpty then some []
    else parseLoop norm deps (parseCall norm deps fuel) file_paths []

/-- A two-file dependency cycle: `a.ma` references `b.ma` and vice versa. -/
def cycDeps (p : String) : List String :=
  if p = "a.ma" then ["b.ma"] else if p = "b.ma" then ["a.ma"] else []

/-! ## Theorems -/

theorem pyTrunc_eq_floor (q : ℚ) (h : 0 ≤ q) : pyTrunc q = ⌊q⌋ := by
  simp [pyTrunc, not_lt.mpr h]

/-- Characterization of `align` on its valid domain: it is the least multiple
of `stride` that is at least `size` (helper shared by the `align` claims). -/
theorem align_char (size stride : ℤ) (h0 : 0 ≤ size) (hs : 0 < stride) :
    stride ∣ align size stride ∧ size ≤ align size stride ∧
      (∀ m : ℤ, stride ∣ m → size ≤ m → align size stride ≤ m) ∧
      (stride ∣ size → align size stride = size) := by
  have hsQ : (0 : ℚ) < (stride : ℚ) := by exact_mod_cast hs
  have hs1 : (1 : ℚ) ≤ (stride : ℚ) := by exact_mod_cast hs
  set q : ℚ := 1 + ((size : ℚ) - 1) / (stride : ℚ) with hqdef
  have hsize0 : (0 : ℚ) ≤ (size : ℚ) := by exact_mod_cast h0
  have hq0 : 0 ≤ q := by
    have h1 : (-1 : ℚ) ≤ (size : ℚ) - 1 := by linarith
    have h2 : (-1 : ℚ) / (stride : ℚ) ≤ ((size : ℚ) - 1) / (stride : ℚ) :=
      (div_le_div_iff_of_pos_right hsQ).mpr h1
    have h3 : (-1 : ℚ) ≤ (-1 : ℚ) / (stride : ℚ) := by
      rw [neg_div]
      have : (1 : ℚ) / (stride : ℚ) ≤ 1 := (div_le_one hsQ).mpr hs1
      linarith
    rw [hqdef]
    linarith
  have htr : pyTrunc q = ⌊q⌋ := pyTrunc_eq_floor q hq0
  have halign : align size stride = stride * ⌊q⌋ := by
    rw [align, ← hqdef, htr]
  set k : ℤ := ⌊q⌋ with hkdef
  have hle : size ≤ align size stride := by
    have hB : q - 1 < (k : ℚ) := Int.sub_one_lt_floor q
    have hq1 : q - 1 = ((size : ℚ) - 1) / (stride : ℚ) := by rw [hqdef]; ring
    have hB2 : ((size : ℚ) - 1) / (stride : ℚ) < (k : ℚ) := hq1 ▸ hB
    have hB3 : (size : ℚ) - 1 < (k : ℚ) * (stride : ℚ) := (div_lt_iff₀ hsQ).mp hB2
    have hB4 : size - 1 < k * stride := by exact_mod_cast hB3
    rw [halign]
    linarith [hB4]
  have hmin : ∀ m : ℤ, stride ∣ m → size ≤ m → align size stride ≤ m := by
    intro m hdvd hm
    obtain ⟨j, hj⟩ := hdvd
    have hA : (k : ℚ) ≤ q := Int.floor_le q
    have hj1 : (size : ℚ) ≤ (stride : ℚ) * (j : ℚ) := by
      have hc : (size : ℚ) ≤ (m : ℚ) := by exact_mod_cast hm
      rw [hj] at hc
      push_cast at hc
      linarith
    have hj2 : ((size : ℚ) - 1) / (stride : ℚ) < (j : ℚ) := by
      rw [div_lt_iff₀ hsQ]
      linarith
    have hkj : (k : ℚ) < (j : ℚ) + 1 := by
      rw [hqdef] at hA
      linarith
    have hkj2 : k ≤ j := by
      have : k < j + 1 := by exact_mod_cast hkj
      omega
    rw [halign, hj]
    exact mul_le_mul_of_nonneg_left hkj2 hs.le
  refine ⟨⟨k, halign⟩, hle, hmin, fun hdvd => le_antisymm (hmin size hdvd le_rfl) hle⟩

/-- C7: for all valid `(size, stride)` with `stride > 0`, `align` returns the
smallest multiple of `stride` greater than or equal to `size`, and returns
`size` itself whenever `size` is already a multiple of `stride`. -/
theorem alignSmallestMultiple (size stride : ℤ) (h0 : 0 ≤ size) (hs : 0 < stride) :
    stride ∣ align size stride ∧ size ≤ align size stride ∧
      (∀ m : ℤ, stride ∣ m → size ≤ m → align size stride ≤ m) ∧
      (stride ∣ size → align size stride = size) :=
  align_char size stride h0 hs

/-- Witness for C7 at `(size, stride) = (5, 4)` and `(8, 4)`. -/
theorem alignSmallestMultipleWitness :
    (4 : ℤ) ∣ align 5 4 ∧ (5 : ℤ) ≤ align 5 4 ∧ align 8 4 = 8 := by
  have h1 := alignSmallestMultiple 5 4 (by norm_num) (by norm_num)
  have h2 := alignSmallestMultiple 8 4 (by norm_num) (by norm_num)
  exact ⟨h1.1, h1.2.1, h2.2.2.2 (by norm_num)⟩

theorem alignN_zero (st : Nat) : alignN 0 st = 0 := by simp [alignN]

theorem le_alignN (s st : Nat) (hst : 0 < st) : s ≤ alignN s st := by
  rcases Nat.eq_zero_or_pos s with h | h
  · simp [alignN, h]
  · have hne : s ≠ 0 := by omega
    simp only [alignN, if_neg hne]
    set a := (s - 1) / st with ha
    set b := (s - 1) % st with hb
    have h1 : st * a + b = s - 1 := Nat.div_add_mod (s - 1) st
    have h2 : b < st := Nat.mod_lt (s - 1) hst
    have h3 : st * (1 + a) = st + st * a := by ring
    rw [h3]
    set c := st * a with hc
    omega

theorem alignN_dvd (s st : Nat) : st ∣ alignN s st := by
  unfold alignN
  split
  · exact Dvd.intro 0 rfl
  · exact Dvd.intro _ rfl

theorem alignN_min (s st m : Nat) (hst : 0 < st) (hdvd : st ∣ m) (hm : s ≤ m) :
    alignN s st ≤ m := by
  rcases Nat.eq_zero_or_pos s with h | h
  · simp [alignN, h]
  · have hne : s ≠ 0 := by omega
    simp only [alignN, if_neg hne]
    obtain ⟨j, rfl⟩ := hdvd
    rcases Nat.eq_zero_or_pos j with hj | hj
    · subst hj
      omega
    · have hlt : (s - 1) / st < j := by
        rw [Nat.div_lt_iff_lt_mul hst]
        have : s ≤ st * j := hm
        have h2 : st * j = j * st := Nat.mul_comm st j
        omega
      exact Nat.mul_le_mul_left st (by omega)

/-- `alignN` agrees with the source's `align` on natural inputs. -/
theorem alignN_eq_align (s st : Nat) (hst : 0 < st) :
    (alignN s st : ℤ) = align (s : ℤ) (st : ℤ) := by
  have hstZ : (0 : ℤ) < (st : ℤ) := by exact_mod_cast hst
  have hchar := align_char (s : ℤ) (st : ℤ) (by positivity) hstZ
  have halignNonneg : (0 : ℤ) ≤ align (s : ℤ) (st : ℤ) :=
    le_trans (by positivity) hchar.2.1
  apply le_antisymm
  · -- align is a nonnegative multiple of st that is ≥ s, so minimality of
    -- alignN over ℕ bounds alignN by it
    obtain ⟨j, hj⟩ := hchar.1
    have hj0 : 0 ≤ j := by
      have hmul : (0 : ℤ) ≤ (st : ℤ) * j := hj ▸ halignNonneg
      nlinarith
    have hjN : j = (j.toNat : ℤ) := (Int.toNat_of_nonneg hj0).symm
    have halignN : align (s : ℤ) (st : ℤ) = ((st * j.toNat : ℕ) : ℤ) := by
      rw [hj]
      push_cast
      rw [← hjN]
    have hsle : s ≤ st * j.toNat := by exact_mod_cast halignN ▸ hchar.2.1
    have hfin := alignN_min s st (st * j.toNat) hst ⟨j.toNat, rfl⟩ hsle
    calc (alignN s st : ℤ) ≤ ((st * j.toNat : ℕ) : ℤ) := by exact_mod_cast hfin
      _ = align (s : ℤ) (st : ℤ) := halignN.symm
  · exact hchar.2.2.1 ((alignN s st : ℤ))
      (by exact_mod_cast Int.natCast_dvd_natCast.mpr (alignN_dvd s st))
      (by exact_mod_cast le_alignN s st hst)

/-- C8: `clean_path` does **not** preserve the `https://` scheme separator:
the unconditional `replace('//', '/')` on the first line of the function runs
before the `find('https://')` guard, which therefore never fires.  On the
failing input the double slash is collapsed. -/
theorem cleanPathCollapsesHttps :
    isSubstrOf "https://".data "https://example.com/test.ma".data = true ∧
      cleanPath "https://example.com/test.ma" = "https:/example.com/test.ma" ∧
      isSubstrOf "https://".data (cleanPath "https://example.com/test.ma").data = false := by
  decide

/-- C6: when the worker's own path occurs twice among the cleaned candidates,
`pop(index(...))` removes only one occurrence and the subsequent
`list(set(...))` keeps the other, so the result still contains the file's
own path. -/
theorem workerSelfReferenceRetained :
    workerRun "/scene.ma" ["/scene.ma", "/scene.ma"] = ["/scene.ma"] ∧
      "/scene.ma" ∈ workerRun "/scene.ma" ["/scene.ma", "/scene.ma"] := by
  decide

/-- C5: for the statement `setAttr ".ftn" -type "string" "textures/wood.png";`
the tokenizer produces the four arguments, the handler resolves the attribute
short name `ftn` and value type `string` (the `-type` flag at index 0 is
skipped by the scan starting at index 1, so the type falls back to the
default `'string'`), and `textures/wood.png` is recorded in the
reference-path list — also shown end-to-end from the raw statement line. -/
theorem setAttrFtnRecordsPath :
    tokenizeStr "\".ftn\" -type \"string\" \"textures/wood.png\"" =
      [".ftn", "-type", "string", "textures/wood.png"] ∧
      handleSetAttrFull [".ftn", "-type", "string", "textures/wood.png"] [] =
        some ("ftn", "string", MayaVal.str "textures/wood.png",
          [MayaVal.str "textures/wood.png"]) ∧
      parseCommandLines
          (gatherStatement ["setAttr \".ftn\" -type \"string\" \"textures/wood.png\";"] []).1 [] =
        some [MayaVal.str "textures/wood.png"] := by
  decide

/-- C9: the statement `setAttr;` assembles to the recognized command
`setAttr` with an empty argument list, and the handler raises
(`args.pop(0)` on an empty list — modelled as `none`) instead of skipping,
while any statement whose command is unrecognized is ignored without
error. -/
theorem setAttrEmptyArgsRaises :
    (gatherStatement ["setAttr;"] [] = (["setAttr"], []) ∧
        parseCommandLines ["setAttr"] [] = none) ∧
      ∀ (l0 : String) (rest : List String) (paths : List MayaVal),
        commandOf l0 ≠ "file" → commandOf l0 ≠ "setAttr" →
        parseCommandLines (l0 :: rest) paths = some paths := by
  refine ⟨by decide, ?_⟩
  intro l0 rest paths h1 h2
  simp only [parseCommandLines, commandOf]
  rw [if_neg]
  simp only [commandOf] at h1 h2
  exact fun h => h.elim h1 h2

/-- Witness for C9's universal part at the concrete unrecognized statement
`unknownCmd stuff`. -/
theorem setAttrEmptyArgsRaisesWitness :
    parseCommandLines ["unknownCmd stuff"] [] = some [] :=
  setAttrEmptyArgsRaises.2 "unknownCmd stuff" [] [] (by decide) (by decide)

/-- C4 counterexample: the claim says the namespace flag consumes two
following tokens, which on `["-ns", "char", "assets/char.ma"]` would exhaust
the arguments and record nothing — but the source advances past `-ns` by two
positions total (the flag plus one argument) and records
`assets/char.ma`. -/
theorem handleFileClaimCounterexample :
    fileScanClaimStated ["-ns", "char", "assets/char.ma"] = none ∧
      handleFile ["-ns", "char", "assets/char.ma"] [] = [MayaVal.str "assets/char.ma"] := by
  decide

theorem fileScanAmended_nil : fileScanAmended [] = none := by
  rw [fileScanAmended.eq_def]

theorem fileScanAmended_cons (a : String) (rest : List String) :
    fileScanAmended (a :: rest) =
      if a = "-r" ∨ a = "--reference" then fileScanAmended rest
      else if a = "-rdi" ∨ a = "--referenceDepthInfo" ∨ a = "-ns" ∨ a = "--namespace" ∨
          a = "-dr" ∨ a = "--deferReference" ∨ a = "-rfn" ∨ a = "--referenceNode" ∨
          isSubstrOf a.data "-op".data ∨ isSubstrOf a.data "-typ".data then
        match rest with
        | [] => none
        | _ :: rest2 => fileScanAmended rest2
      else some a := by
  rw [fileScanAmended.eq_def]

theorem handleFileLoop_step (args : List String) (fuel i : Nat) (h : i < args.length) :
    handleFileLoop args (fuel + 1) i =
      if args[i] = "-r" ∨ args[i] = "--reference" then handleFileLoop args fuel (i + 1)
      else if args[i] = "-rdi" ∨ args[i] = "--referenceDepthInfo" ∨ args[i] = "-ns" ∨
          args[i] = "--namespace" ∨ args[i] = "-dr" ∨ args[i] = "--deferReference" ∨
          args[i] = "-rfn" ∨ args[i] = "--referenceNode" ∨
          isSubstrOf args[i].data "-op".data ∨ isSubstrOf args[i].data "-typ".data then
        handleFileLoop args fuel (i + 2)
      else i := by
  simp only [handleFileLoop, dif_pos h]
  split_ifs <;> tauto

theorem fileScan_eq_loop (args : List String) :
    ∀ fuel i, args.length - i < fuel →
      fileScanAmended (args.drop i) = args[handleFileLoop args fuel i]? := by
  intro fuel
  induction fuel with
  | zero => intro i h; omega
  | succ fuel ih =>
    intro i h
    by_cases hi : i < args.length
    · have hdrop : args.drop i = args[i] :: args.drop (i + 1) := List.drop_eq_getElem_cons hi
      rw [handleFileLoop_step args fuel i hi, hdrop, fileScanAmended_cons]
      by_cases h1 : args[i] = "-r" ∨ args[i] = "--reference"
      · rw [if_pos h1, if_pos h1]
        exact ih (i + 1) (by omega)
      · rw [if_neg h1, if_neg h1]
        by_cases h2 : args[i] = "-rdi" ∨ args[i] = "--referenceDepthInfo" ∨ args[i] = "-ns" ∨
            args[i] = "--namespace" ∨ args[i] = "-dr" ∨ args[i] = "--deferReference" ∨
            args[i] = "-rfn" ∨ args[i] = "--referenceNode" ∨
            isSubstrOf args[i].data "-op".data ∨ isSubstrOf args[i].data "-typ".data
        · rw [if_pos h2, if_pos h2]
          by_cases hi1 : i + 1 < args.length
          · rw [List.drop_eq_getElem_cons hi1]
            exact ih (i + 2) (by omega)
          · have h3 := ih (i + 2) (by omega)
            rw [List.drop_eq_nil_of_le (by omega), fileScanAmended_nil] at h3
            rw [List.drop_eq_nil_of_le (by omega)]
            exact h3
        · rw [if_neg h2, if_neg h2]
          exact (List.getElem?_eq_getElem hi).symm
    · have hl : handleFileLoop args (fuel + 1) i = i := by
        simp [handleFileLoop, dif_neg hi]
      rw [hl, List.drop_eq_nil_of_le (by omega), List.getElem?_eq_none (by omega),
        fileScanAmended_nil]

/-- C4 amended: the reference flag consumes no following token; the
namespace, reference-depth-info, defer-reference, reference-node, operation
and type flags each consume exactly **one** following token, and the
operation/type flag tests match any token that is a Python substring of
`-op` resp. `-typ`; the first non-flag token is the file path and is
appended to the reference-path list only if not already present. -/
theorem handleFileAmendedCorrect (args : List String) (paths : List MayaVal) :
    handleFile args paths = handleFileAmended args paths := by
  have h := fileScan_eq_loop args (args.length + 1) 0 (by omega)
  rw [List.drop_zero] at h
  set j := handleFileLoop args (args.length + 1) 0 with hj
  by_cases hlt : j < args.length
  · simp only [handleFile, handleFileAmended, ← hj, dif_pos hlt, h,
      List.getElem?_eq_getElem hlt]
  · simp only [handleFile, handleFileAmended, ← hj, dif_neg hlt, h,
      List.getElem?_eq_none (by omega : args.length ≤ j)]

/-- One unfolding step of the embedded recursive `parse` on the cyclic pair:
parsing `a.ma` resolves its dependency list `["b.ma"]` and immediately
recurses on it with one less stack frame; everything else in the step is
concrete computation. -/
theorem parseStepA (n : Nat) :
    parseCall (fun s => s) cycDeps (n + 1) ["a.ma"] =
      match parseCall (fun s => s) cycDeps n ["b.ma"] with
      | none => none
      | some _ => some [("a.ma", ["b.ma"])] := rfl

/-- The symmetric step for `b.ma`. -/
theorem parseStepB (n : Nat) :
    parseCall (fun s => s) cycDeps (n + 1) ["b.ma"] =
      match parseCall (fun s => s) cycDeps n ["a.ma"] with
      | none => none
      | some _ => some [("b.ma", ["a.ma"])] := rfl

/-- C3: the recursive `parse` has no cycle guard — each invocation builds a
fresh local result mapping and recurses on the discovered dependencies
without consulting any set of already-resolved paths — so on two files that
reference each other the recursion never completes at any depth (`fuel`
bounds the number of nested `parse` frames; in CPython the spiral ends only
in a `RecursionError`). -/
theorem parseCycleDiverges :
    ∀ fuel : Nat,
      parseCall (fun s => s) cycDeps fuel ["a.ma"] = none ∧
      parseCall (fun s => s) cycDeps fuel ["b.ma"] = none := by
  intro fuel
  induction fuel with
  | zero => exact ⟨rfl, rfl⟩
  | succ n ih =>
    refine ⟨?_, ?_⟩
    · rw [parseStepA n, ih.2]
    · rw [parseStepB n, ih.1]

theorem readNT_found :
    ∀ (k : Nat) (data : List Char) (pos : Nat) (acc : List Char),
      data.length - pos = k → '\x00' ∈ data.drop pos →
      readNullTerminated k data pos acc =
        some (acc ++ (data.drop pos).takeWhile (· ≠ '\x00'),
          pos + ((data.drop pos).takeWhile (· ≠ '\x00')).length + 1) := by
  intro k
  induction k with
  | zero =>
    intro data pos acc hk hmem
    rw [List.drop_eq_nil_of_le (by omega)] at hmem
    simp at hmem
  | succ k ih =>
    intro data pos acc hk hmem
    by_cases hpos : pos < data.length
    · have hdrop : data.drop pos = data[pos] :: data.drop (pos + 1) :=
        List.drop_eq_getElem_cons hpos
      by_cases hc : data[pos] = '\x00'
      · have hstep : readNullTerminated (k + 1) data pos acc = some (acc, pos + 1) := by
          rw [readNullTerminated.eq_def]
          simp [List.getElem?_eq_getElem hpos, hc]
        rw [hstep, hdrop]
        simp [List.takeWhile_cons, hc]
      · have hstep : readNullTerminated (k + 1) data pos acc =
            readNullTerminated k data (pos + 1) (acc ++ [data[pos]]) := by
          rw [readNullTerminated.eq_def]
          simp [List.getElem?_eq_getElem hpos, hc]
        have hmem2 : '\x00' ∈ data.drop (pos + 1) := by
          rw [hdrop] at hmem
          rcases List.mem_cons.mp hmem with h | h
          · exact absurd h.symm hc
          · exact h
        rw [hstep, ih data (pos + 1) (acc ++ [data[pos]]) (by omega) hmem2, hdrop]
        simp only [List.takeWhile_cons, hc, decide_not, Option.some.injEq, Prod.mk.injEq]
        constructor
        · simp [List.append_assoc, hc]
        · simp [hc]
          omega
    · rw [List.drop_eq_nil_of_le (by omega)] at hmem
      simp at hmem

theorem readNT_noNul :
    ∀ (fuel : Nat) (data : List Char) (pos : Nat) (acc : List Char),
      '\x00' ∉ data.drop pos → readNullTerminated fuel data pos acc = none := by
  intro fuel
  induction fuel with
  | zero => intro data pos acc hmem; rw [readNullTerminated.eq_def]
  | succ k ih =>
    intro data pos acc hmem
    by_cases hpos : pos < data.length
    · have hdrop : data.drop pos = data[pos] :: data.drop (pos + 1) :=
        List.drop_eq_getElem_cons hpos
      have hc : data[pos] ≠ '\x00' := by
        intro heq
        apply hmem
        rw [hdrop, ← heq]
        exact List.mem_cons_self _ _
      have hstep : readNullTerminated (k + 1) data pos acc =
          readNullTerminated k data (pos + 1) (acc ++ [data[pos]]) := by
        rw [readNullTerminated.eq_def]
        simp [List.getElem?_eq_getElem hpos, hc]
      rw [hstep]
      exact ih data (pos + 1) (acc ++ [data[pos]])
        (fun h => hmem (hdrop ▸ List.mem_cons_of_mem _ h))
    · have hnone : data[pos]? = none := List.getElem?_eq_none (by omega)
      have hstep : readNullTerminated (k + 1) data pos acc =
          readNullTerminated k data pos acc := by
        rw [readNullTerminated.eq_def]
        simp [hnone]
      rw [hstep]
      exact ih data pos acc hmem

/-- C10: when a NUL byte remains in the stream, `read_null_terminated`
terminates (fuel `data.length - pos` suffices), returning exactly the bytes
before the first NUL with the stream positioned immediately after it; when
no NUL remains, no amount of fuel yields a result — the loop never
terminates, since `while stream` is always true for a file object and
reading at end of stream returns `''` forever. -/
theorem readNullTerminatedSpec (data : List Char) (pos : Nat) :
    ('\x00' ∈ data.drop pos →
      readNullTerminated (data.length - pos) data pos [] =
        some ((data.drop pos).takeWhile (· ≠ '\x00'),
          pos + ((data.drop pos).takeWhile (· ≠ '\x00')).length + 1)) ∧
    ('\x00' ∉ data.drop pos → ∀ fuel acc, readNullTerminated fuel data pos acc = none) := by
  constructor
  · intro hmem
    have h := readNT_found (data.length - pos) data pos [] rfl hmem
    simpa using h
  · intro hmem fuel acc
    exact readNT_noNul fuel data pos acc hmem

/-- Witness for C10 on the stream `ab\x00c` read from position 0. -/
theorem readNullTerminatedSpecWitness :
    readNullTerminated ("ab\x00c".data.length - 0) "ab\x00c".data 0 [] =
      some ("ab".data, 3) := by
  have h := (readNullTerminatedSpec "ab\x00c".data 0).1 (by decide)
  exact h.trans (by decide)

/-- C1: for a binary stream whose first four bytes are neither `FOR4` nor
`FOR8`, the decode aborts with a structural error, the batch result mapping
contains no entry for that file (it equals the mapping for the batch with
the file removed, so all sibling files resolve exactly as before), and the
file is recorded in the error list. -/
theorem binaryBadMagicIsolated (walk : Bool → List Nat → List String) (name : String)
    (data : List Nat) (pre post : List (String × List Nat))
    (h4 : 4 ≤ data.length)
    (hm4 : wordBE (data.take 4) ≠ tagFOR4) (hm8 : wordBE (data.take 4) ≠ tagFOR8) :
    decodeBinaryFile walk data = Except.error () ∧
      (resolveBatch walk (pre ++ (name, data) :: post)).1 =
        (resolveBatch walk (pre ++ post)).1 ∧
      name ∈ (resolveBatch walk (pre ++ (name, data) :: post)).2 := by
  have hsel : magicSelect data = none := by
    unfold magicSelect
    rw [if_neg (by omega)]
    simp [hm4, hm8]
  have hdec : decodeBinaryFile walk data = Except.error () := by
    unfold decodeBinaryFile
    rw [hsel]
  refine ⟨hdec, ?_, ?_⟩
  · induction pre with
    | nil => simp [resolveBatch, hdec]
    | cons hd tl ih =>
      obtain ⟨n, d⟩ := hd
      simp only [List.cons_append, resolveBatch]
      cases decodeBinaryFile walk d with
      | ok refs => simpa using ih
      | error e => simpa using ih
  · induction pre with
    | nil => simp [resolveBatch, hdec]
    | cons hd tl ih =>
      obtain ⟨n, d⟩ := hd
      simp only [List.cons_append, resolveBatch]
      cases decodeBinaryFile walk d with
      | ok refs => simpa using ih
      | error e => simpa using Or.inr ih

/-- Witness for C1: the stream `XXXX` (bytes `88 88 88 88`) fails the magic
check; the sibling `good.mb` with a `FOR4` magic still resolves. -/
theorem binaryBadMagicIsolatedWitness :
    decodeBinaryFile (fun _ _ => ["dep.ma"]) [88, 88, 88, 88] = Except.error () ∧
      (resolveBatch (fun _ _ => ["dep.ma"])
          [("good.mb", encodeBE 4 tagFOR4), ("bad.mb", [88, 88, 88, 88])]).1 =
        (resolveBatch (fun _ _ => ["dep.ma"]) [("good.mb", encodeBE 4 tagFOR4)]).1 ∧
      "bad.mb" ∈ (resolveBatch (fun _ _ => ["dep.ma"])
          [("good.mb", encodeBE 4 tagFOR4), ("bad.mb", [88, 88, 88, 88])]).2 := by
  have h := binaryBadMagicIsolated (fun _ _ => ["dep.ma"]) "bad.mb" [88, 88, 88, 88]
    [("good.mb", encodeBE 4 tagFOR4)] [] (by decide) (by decide) (by decide)
  simpa using h

theorem wordBE_append (l : List Nat) (a : Nat) :
    wordBE (l ++ [a]) = wordBE l * 256 + a := by
  simp [wordBE, List.foldl_append]

theorem encodeBE_length (n : Nat) : ∀ v, (encodeBE n v).length = n := by
  induction n with
  | zero => intro v; rfl
  | succ n ih => intro v; simp [encodeBE, ih]

theorem wordBE_encodeBE (n : Nat) : ∀ v, wordBE (encodeBE n v) = v % 256 ^ n := by
  induction n with
  | zero => intro v; simp [encodeBE, wordBE, Nat.mod_one]
  | succ n ih =>
    intro v
    have hunf : encodeBE (n + 1) v = encodeBE n (v / 256) ++ [v % 256] := by
      rw [encodeBE.eq_def]
    rw [hunf, wordBE_append, ih, pow_succ', Nat.mod_mul]
    omega

theorem encodeWordF_length (fmt : IffFormat) (n v : Nat) :
    (encodeWordF fmt n v).length = n := by
  unfold encodeWordF
  split <;> simp [encodeBE_length]

theorem decodeWordF_encodeWordF (fmt : IffFormat) (n v : Nat) (h : v < 256 ^ n) :
    decodeWordF fmt (encodeWordF fmt n v) = v := by
  unfold decodeWordF encodeWordF
  by_cases he : fmt.endianness = 2
  · simp [he, wordLE, wordBE_encodeBE, Nat.mod_eq_of_lt h]
  · simp [he, wordBE_encodeBE, Nat.mod_eq_of_lt h]

theorem encodeHeader_length (fmt : IffFormat) (t len : Nat) :
    (encodeHeader fmt t len).length = headerSize fmt := by
  simp [encodeHeader, headerSize, headerFieldWidth, encodeWordF_length]
  omega

theorem headerSize_pos (fmt : IffFormat) (htb : 0 < fmt.typeid_bytes) :
    0 < headerSize fmt := by
  unfold headerSize headerFieldWidth
  omega

theorem encodeChunk_length (fmt : IffFormat) (sp : Nat × List Nat)
    (hca : 0 < fmt.chunk_alignment) :
    (encodeChunk fmt sp).length =
      headerSize fmt + alignN sp.2.length fmt.chunk_alignment := by
  have hle := le_alignN sp.2.length fmt.chunk_alignment hca
  simp [encodeChunk, encodeHeader_length]
  omega

theorem pastEnd_eq_false (bound : Option Nat) (pos : Nat)
    (h : ∀ b, bound = some b → pos < b) : pastEnd bound pos = false := by
  cases bound with
  | none => rfl
  | some b =>
    have hb := h b rfl
    simp only [pastEnd]
    split
    · rfl
    · simp
      omega

theorem expectedChunks_length (fmt : IffFormat) :
    ∀ (specs : List (Nat × List Nat)) (pos : Nat),
      (expectedChunks fmt specs pos).length = specs.length := by
  intro specs
  induction specs with
  | nil => intro pos; rfl
  | cons sp rest ih =>
    intro pos
    obtain ⟨t, p⟩ := sp
    simp only [expectedChunks, List.length_cons, ih]

theorem iterChunks_succ (fmt : IffFormat) (hf : IffChunk → Nat) (types : Option (List Nat))
    (fuel : Nat) (data : List Nat) (pos : Nat) (bound : Option Nat) :
    iterChunks fmt hf types (fuel + 1) data pos bound =
      if pastEnd bound pos then []
      else
        match readHeader fmt data pos with
        | none => []
        | some (t, len) =>
          let c : IffChunk := ⟨t, pos + headerSize fmt, len⟩
          let rest := iterChunks fmt hf types fuel data (chunkAlignedEnd fmt c) bound
          match types with
          | none => c :: rest
          | some ts => if t ∈ ts then c :: rest else rest := by
  rw [iterChunks.eq_def]

theorem readHeader_encode (fmt : IffFormat) (t : Nat) (p : List Nat) (pre tail : List Nat)
    (ht : t < 256 ^ fmt.typeid_bytes) (hp : p.length < 256 ^ fmt.size_bytes) :
    readHeader fmt (pre ++ (encodeChunk fmt (t, p) ++ tail)) pre.length =
      some (t, p.length) := by
  have hA1len : (encodeWordF fmt fmt.typeid_bytes t).length = fmt.typeid_bytes :=
    encodeWordF_length fmt _ t
  have hA1P1len : (encodeWordF fmt fmt.typeid_bytes t ++
      List.replicate (fmt.header_alignment - fmt.typeid_bytes) 0).length =
      headerFieldWidth fmt.typeid_bytes fmt.header_alignment := by
    simp [encodeWordF_length, headerFieldWidth]
  have hA2len : (encodeWordF fmt fmt.size_bytes p.length).length = fmt.size_bytes :=
    encodeWordF_length fmt _ p.length
  have hEC : (encodeChunk fmt (t, p)).length =
      headerSize fmt + (p.length +
        (alignN p.length fmt.chunk_alignment - p.length)) := by
    simp [encodeChunk, encodeHeader_length]
  have hdlen : pre.length + headerSize fmt ≤
      (pre ++ (encodeChunk fmt (t, p) ++ tail)).length := by
    simp only [List.length_append, hEC]
    omega
  have hdrop0 : (pre ++ (encodeChunk fmt (t, p) ++ tail)).drop pre.length =
      encodeChunk fmt (t, p) ++ tail := List.drop_left _ _
  have hgrp1 : encodeChunk fmt (t, p) ++ tail =
      encodeWordF fmt fmt.typeid_bytes t ++
        (List.replicate (fmt.header_alignment - fmt.typeid_bytes) 0 ++
          (encodeWordF fmt fmt.size_bytes p.length ++
            (List.replicate (fmt.header_alignment - fmt.size_bytes) 0 ++
              (p ++ (List.replicate (alignN p.length fmt.chunk_alignment - p.length) 0 ++
                tail))))) := by
    simp [encodeChunk, encodeHeader, List.append_assoc]
  have hgrp2 : encodeChunk fmt (t, p) ++ tail =
      (encodeWordF fmt fmt.typeid_bytes t ++
        List.replicate (fmt.header_alignment - fmt.typeid_bytes) 0) ++
        (encodeWordF fmt fmt.size_bytes p.length ++
          (List.replicate (fmt.header_alignment - fmt.size_bytes) 0 ++
            (p ++ (List.replicate (alignN p.length fmt.chunk_alignment - p.length) 0 ++
              tail)))) := by
    simp [encodeChunk, encodeHeader, List.append_assoc]
  unfold readHeader
  rw [if_pos hdlen]
  simp only [Option.some.injEq, Prod.mk.injEq]
  constructor
  · rw [hdrop0, hgrp1, List.take_left' hA1len]
    exact decodeWordF_encodeWordF fmt _ t ht
  · rw [← List.drop_drop, hdrop0, hgrp2, List.drop_left' hA1P1len, List.take_left' hA2len]
    exact decodeWordF_encodeWordF fmt _ p.length hp

theorem encodeChunks_cons (fmt : IffFormat) (sp : Nat × List Nat)
    (rest : List (Nat × List Nat)) :
    encodeChunks fmt (sp :: rest) = encodeChunk fmt sp ++ encodeChunks fmt rest := by
  simp [encodeChunks]

theorem iterChunks_encode_aux (fmt : IffFormat) (hf : IffChunk → Nat)
    (htb : 0 < fmt.typeid_bytes) (hca : 0 < fmt.chunk_alignment) :
    ∀ (specs : List (Nat × List Nat)) (pre : List Nat) (bound : Option Nat),
      (∀ tp ∈ specs, tp.1 < 256 ^ fmt.typeid_bytes ∧ tp.2.length < 256 ^ fmt.size_bytes) →
      (∀ b, bound = some b → pre.length + (encodeChunks fmt specs).length ≤ b) →
      iterChunks fmt hf none (specs.length + 1) (pre ++ encodeChunks fmt specs)
          pre.length bound = expectedChunks fmt specs pre.length := by
  intro specs
  induction specs with
  | nil =>
    intro pre bound hspec hb
    rw [iterChunks_succ]
    by_cases hpe : pastEnd bound pre.length = true
    · rw [if_pos hpe]
      rfl
    · rw [if_neg hpe]
      have hrh : readHeader fmt (pre ++ encodeChunks fmt []) pre.length = none := by
        unfold readHeader
        rw [if_neg]
        have hhs := headerSize_pos fmt htb
        simp [encodeChunks]
        omega
      rw [hrh]
      rfl
  | cons sp rest ih =>
    obtain ⟨t, p⟩ := sp
    intro pre bound hspec hb
    have hsp := hspec (t, p) (List.mem_cons_self _ _)
    have ht : t < 256 ^ fmt.typeid_bytes := hsp.1
    have hp : p.length < 256 ^ fmt.size_bytes := hsp.2
    have hle := le_alignN p.length fmt.chunk_alignment hca
    have hEC := encodeChunk_length fmt (t, p) hca
    have hrw : pre ++ encodeChunks fmt ((t, p) :: rest) =
        pre ++ (encodeChunk fmt (t, p) ++ encodeChunks fmt rest) := by
      rw [encodeChunks_cons]
    have hhs := headerSize_pos fmt htb
    have hpe : pastEnd bound pre.length = false := by
      apply pastEnd_eq_false
      intro b hbnd
      have := hb b hbnd
      rw [encodeChunks_cons] at this
      simp only [List.length_append] at this
      omega
    rw [hrw, iterChunks_succ, hpe]
    simp only [Bool.false_eq_true, if_false]
    rw [readHeader_encode fmt t p pre (encodeChunks fmt rest) ht hp]
    simp only [List.length_cons]
    have hnext : chunkAlignedEnd fmt ⟨t, pre.length + headerSize fmt, p.length⟩ =
        (pre ++ encodeChunk fmt (t, p)).length := by
      simp only [chunkAlignedEnd, List.length_append, hEC]
      omega
    have hassoc : pre ++ (encodeChunk fmt (t, p) ++ encodeChunks fmt rest) =
        (pre ++ encodeChunk fmt (t, p)) ++ encodeChunks fmt rest := by
      rw [List.append_assoc]
    have hb2 : ∀ b, bound = some b →
        (pre ++ encodeChunk fmt (t, p)).length + (encodeChunks fmt rest).length ≤ b := by
      intro b hbnd
      have := hb b hbnd
      rw [encodeChunks_cons] at this
      simp only [List.length_append] at this ⊢
      omega
    have hEC2 : (encodeChunk fmt (t, p)).length =
        headerSize fmt + alignN p.length fmt.chunk_alignment := hEC
    have hlen1 : (pre ++ encodeChunk fmt (t, p)).length =
        pre.length + headerSize fmt + alignN p.length fmt.chunk_alignment := by
      simp only [List.length_append, hEC2]
      omega
    rw [hnext, hassoc, ih (pre ++ encodeChunk fmt (t, p)) bound
      (fun tp htp => hspec tp (List.mem_cons_of_mem _ htp)) hb2, hlen1]
    simp only [expectedChunks]

/-- C2: iterating a stream of `N` well-formed sibling chunks yields exactly
the `N` chunks in file order, and the stream position at which each next
sibling header is read is the previous chunk's aligned end
`data_offset + align(data_length, chunk_alignment)` — independently of the
handler's read position `hf` (the `finally` block of `_using_chunk` always
seeks to the aligned end computed on entry, discarding wherever a read-only
handler left the stream). -/
theorem iterChunksYieldsAligned (fmt : IffFormat) (hf : IffChunk → Nat)
    (specs : List (Nat × List Nat))
    (htb : 0 < fmt.typeid_bytes) (hca : 0 < fmt.chunk_alignment)
    (hspec : ∀ tp ∈ specs,
      tp.1 < 256 ^ fmt.typeid_bytes ∧ tp.2.length < 256 ^ fmt.size_bytes) :
    iterChunks fmt hf none (specs.length + 1) (encodeChunks fmt specs) 0 none =
        expectedChunks fmt specs 0 ∧
      (iterChunks fmt hf none (specs.length + 1) (encodeChunks fmt specs) 0 none).length =
        specs.length := by
  have h := iterChunks_encode_aux fmt hf htb hca specs [] none hspec (by intro b hb; cases hb)
  simp only [List.nil_append, List.length_nil] at h
  exact ⟨h, by rw [h, expectedChunks_length]⟩

/-- Witness for C2: a 32-bit big-endian format with two chunks (one 3-byte
payload, one empty) and a handler that reads the whole payload. -/
theorem iterChunksYieldsAlignedWitness :
    iterChunks ⟨1, 4, 4, 4, 4⟩ (fun c => c.data_offset + c.data_length) none 3
        (encodeChunks ⟨1, 4, 4, 4, 4⟩ [(65, [9, 9, 9]), (66, [])]) 0 none =
      [⟨65, 8, 3⟩, ⟨66, 20, 0⟩] := by
  have h := (iterChunksYieldsAligned ⟨1, 4, 4, 4, 4⟩ (fun c => c.data_offset + c.data_length)
    [(65, [9, 9, 9]), (66, [])] (by decide) (by decide) (by decide)).1
  exact h.trans (by decide)
